import Mathlib

/-!
Verification of the n-puzzle state model (`src/n_puzzle.rs`) and the CLI's
result reporting (`src/bin/main.rs`).

The Rust `Board` is `pathfinding::matrix::Matrix<Option<NonZeroU8>>`; every
matrix this program builds is square (it only uses `Matrix::square_from_vec`
and element swaps), so the model carries a single `rows` field and a row-major
flat data list.  Tile values are modelled as the `Nat` results of
`NonZeroU8::get`; the range constraint `1 ≤ v ≤ 255` imposed by the `NonZeroU8`
input type is carried as an explicit hypothesis where it matters.
Rust panics (failed `assert!`s, out-of-bounds indexing) are modelled as `none`
results of `Option`-valued functions.
-/

/-- Model of `pub type Pos = (usize, usize);` — `(row, column)`. -/
abbrev Pos := Nat × Nat

/-- Model of `pub type Board = Matrix<Option<NonZeroU8>>` restricted to the
square matrices this program constructs: `rows` is the side length and `data`
the row-major cell list (`none` is the blank). -/
structure Board where
  rows : Nat
  data : List (Option Nat)
deriving DecidableEq, Repr

/-- Model of `pathfinding::matrix::MatrixFormatError` (only the wrong-length
variant is reachable through `square_from_vec`). -/
inductive MatrixFormatError where
  | WrongLength
deriving DecidableEq, Repr

/-- Largest `s ≤ k` with `s * s ≤ n` (0 when none), by structural recursion
on `k` so that it evaluates inside the kernel. -/
def sqrtAux (n : Nat) : Nat → Nat
  | 0 => 0
  | k + 1 => if (k + 1) * (k + 1) ≤ n then k + 1 else sqrtAux n k

/-- The integer square root, `⌊√n⌋`.  The crate computes the candidate side
via `(len as f64).sqrt().round()` and then checks `side * side == len`; on
that perfect-square test, rounding and flooring are interchangeable, so this
kernel-computable floor is an exact model. -/
def isqrt (n : Nat) : Nat := sqrtAux n n

/-- Model of `Matrix::square_from_vec`: succeeds iff the element count is a
perfect square, producing the square matrix of that side length. -/
def square_from_vec (v : List (Option Nat)) : Except MatrixFormatError Board :=
  let s := isqrt v.length
  if s * s = v.length then .ok ⟨s, v⟩ else .error .WrongLength

/-- Model of `#[derive(...)] pub struct NPuzzle { board, blank_position }`. -/
structure NPuzzle where
  board : Board
  blank_position : Pos
deriving DecidableEq, Repr

instance : DecidableEq (Except MatrixFormatError NPuzzle) := fun a b =>
  match a, b with
  | .ok x, .ok y =>
    if h : x = y then .isTrue (by rw [h])
    else .isFalse (fun hc => h (Except.ok.inj hc))
  | .error x, .error y =>
    if h : x = y then .isTrue (by rw [h])
    else .isFalse (fun hc => h (Except.error.inj hc))
  | .ok _, .error _ => .isFalse (fun hc => Except.noConfusion hc)
  | .error _, .ok _ => .isFalse (fun hc => Except.noConfusion hc)

/-- Row-major flat index of a position: `row * columns + col` (square board,
so `columns = rows`). -/
def Board.idx (m : Board) (p : Pos) : Nat :=
  m.rows * p.1 + p.2

/-- The flat list assembled by `NPuzzle::new` before `square_from_vec`:
`blank_index` tiles, the blank, then up to `size*size - blank_index - 1`
further tiles.  When `blank_index ≥ size*size` the Rust expression
`size * size - blank_index - 1` underflows; in release builds it wraps to at
least `2^64 - blank_index - 1`, so the `take` drains the whole remainder,
which is what the `else` branch states directly. -/
def NPuzzle.board_pieces (size : Nat) (start_items : List Nat)
    (blank_position : Pos) : List (Option Nat) :=
  let blank_index := size * blank_position.1 + blank_position.2
  let items := start_items.map some
  let rest := items.drop blank_index
  (items.take blank_index ++ [none]) ++
    rest.take (if blank_index < size * size
               then size * size - blank_index - 1
               else rest.length)

/-- Model of `NPuzzle::new`: assemble the flat list with the blank spliced in
at the requested flat index, then reshape via `square_from_vec`. -/
def NPuzzle.new (size : Nat) (start_items : List Nat) (blank_position : Pos) :
    Except MatrixFormatError NPuzzle :=
  (square_from_vec (NPuzzle.board_pieces size start_items blank_position)).map
    (fun board => ⟨board, blank_position⟩)

/-- Model of `Matrix::neighbours(index, false)` for in-bounds queries (the
only ones this program performs): the orthogonally adjacent in-bounds
positions, produced in row-major order over the surrounding box, exactly as
the crate's range/filter pipeline yields them. -/
def Board.neighbours (m : Board) (p : Pos) : List Pos :=
  if p.1 < m.rows ∧ p.2 < m.rows then
    ((List.range' (p.1 - 1) (min m.rows (p.1 + 2) - (p.1 - 1))).flatMap
      (fun rr => (List.range' (p.2 - 1) (min m.rows (p.2 + 2) - (p.2 - 1))).map
        (fun cc => (rr, cc)))).filter
      (fun q => (decide (q.1 = p.1)) != (decide (q.2 = p.2)))
  else []

/-- Swap the list entries at flat indices `i` and `j` (both assumed in
bounds where used), as `Vec::swap` does. -/
def swapData (l : List (Option Nat)) (i j : Nat) : List (Option Nat) :=
  (l.set i (l.getD j none)).set j (l.getD i none)

/-- Model of `Matrix::swap` on two in-bounds positions. -/
def Board.swap (m : Board) (a b : Pos) : Board :=
  ⟨m.rows, swapData m.data (m.idx a) (m.idx b)⟩

/-- Model of `NPuzzle::move_blank`.  `none` models a panic: the
`assert_ne!(self.blank_position, new_blank_position)` failing, or
`Matrix::swap` asserting an index within bounds. -/
def NPuzzle.move_blank (p : NPuzzle) (new_blank_position : Pos) :
    Option NPuzzle :=
  if p.blank_position = new_blank_position then none
  else if p.blank_position.1 < p.board.rows ∧ p.blank_position.2 < p.board.rows ∧
      new_blank_position.1 < p.board.rows ∧ new_blank_position.2 < p.board.rows then
    some ⟨p.board.swap p.blank_position new_blank_position, new_blank_position⟩
  else none

/-- Sequence a panicking (`Option`-valued) function over a list, as the Rust
`iter().map(f).collect()` does when `f` may panic: the first panic aborts the
whole computation. -/
def collectMoves (f : Pos → Option NPuzzle) : List Pos → Option (List NPuzzle)
  | [] => some []
  | a :: l =>
    match f a, collectMoves f l with
    | some b, some bs => some (b :: bs)
    | _, _ => none

/-- Model of `NPuzzle::successors`: one `move_blank` per legal blank move. -/
def NPuzzle.successors (p : NPuzzle) : Option (List NPuzzle) :=
  collectMoves p.move_blank (p.board.neighbours p.blank_position)

/-- The `(row, column)` position of flat index `i` in a matrix of `rows`
columns (square), as `Matrix::items` reports it. -/
def itemsFrom (rows : Nat) : Nat → List (Option Nat) → List (Pos × Option Nat)
  | _, [] => []
  | i, a :: l => ((i / rows, i % rows), a) :: itemsFrom rows (i + 1) l

/-- Model of `Matrix::items`: every cell with its position, row-major. -/
def Board.items (m : Board) : List (Pos × Option Nat) :=
  itemsFrom m.rows 0 m.data

/-- Model of `NPuzzle::num_incorrect`: count the enumerated cells whose tile
satisfies `index != value - 1` (blanks are skipped). -/
def NPuzzle.num_incorrect (p : NPuzzle) : Nat :=
  (p.board.items.enum.filter (fun iv =>
    match iv.2.2 with
    | some v => decide (iv.1 ≠ v - 1)
    | none => false)).length

/-- Model of `NPuzzle::taxicab_distance`: for every tile, the Manhattan
distance from its position to the goal cell of label `v`, namely
`((v-1) / rows, (v-1) % rows)`; `Nat.dist` is `usize::abs_diff`. -/
def NPuzzle.taxicab_distance (p : NPuzzle) : Nat :=
  ((p.board.items.filterMap (fun pv => pv.2.map (fun v => (pv.1, v - 1)))).map
    (fun pv => Nat.dist pv.1.1 (pv.2 / p.board.rows) +
      Nat.dist pv.1.2 (pv.2 % p.board.rows))).sum

/-- Model of `NPuzzle::success`. -/
def NPuzzle.success (p : NPuzzle) : Bool :=
  p.num_incorrect == 0

/-- Per-cell weight of `num_incorrect`: 1 for a tile off its goal index. -/
def incTerm (i : Nat) (cell : Option Nat) : Nat :=
  match cell with
  | some v => if i ≠ v - 1 then 1 else 0
  | none => 0

/-- Per-cell weight of `taxicab_distance` on a board with `rows` columns. -/
def taxiTerm (rows : Nat) (i : Nat) (cell : Option Nat) : Nat :=
  match cell with
  | some v => Nat.dist (i / rows) ((v - 1) / rows) +
      Nat.dist (i % rows) ((v - 1) % rows)
  | none => 0


/-! ### The board invariant -/

/-- A tile label fits the documented range `[1, N]`. -/
def tileOK (N : Nat) (c : Option Nat) : Bool :=
  match c with
  | some v => decide (1 ≤ v ∧ v ≤ N)
  | none => true

/-- The spec's board invariant: an `n×n` grid, a cached in-bounds blank
position that matches the grid's actual (unique) blank cell, tile labels
distinct values of `[1, n²-1]`. -/
def Valid (p : NPuzzle) : Prop :=
  p.board.data.length = p.board.rows * p.board.rows ∧
  p.blank_position.1 < p.board.rows ∧
  p.blank_position.2 < p.board.rows ∧
  p.board.data.getD (p.board.idx p.blank_position) none = none ∧
  p.board.data.countP (fun c => c.isNone) = 1 ∧
  p.board.data.all (tileOK (p.board.rows * p.board.rows - 1)) = true ∧
  p.board.data.Nodup

instance (p : NPuzzle) : Decidable (Valid p) := by
  unfold Valid
  infer_instance


/-- The spec's canonical solved configuration: cell `(r, c)` holds label
`r*n + c + 1`, which forces the blank into the last cell; the cached blank
position then sits at `(n-1, n-1)`. -/
def canonical (p : NPuzzle) : Prop :=
  (∀ r c, r < p.board.rows → c < p.board.rows →
    p.board.data.getD (p.board.rows * r + c) none =
      (if p.board.rows * r + c = p.board.rows * p.board.rows - 1 then none
       else some (p.board.rows * r + c + 1))) ∧
  p.blank_position = (p.board.rows - 1, p.board.rows - 1)


/-! ### The CLI's breadth-first search arm and its result reporting -/

/-- Modelled from the spec: the `pathfinding::prelude::bfs` call in `main` is
library code outside this repository.  This is its documented behaviour —
breadth-first exploration from the start state, testing the goal when a node
is expanded, returning the path from start to goal inclusive — made total
with an explicit fuel bound.  The queue holds reversed paths; `visited`
prevents re-enqueueing a state. -/
def bfsAux (succs : NPuzzle → List NPuzzle) (goal : NPuzzle → Bool) :
    Nat → List (List NPuzzle) → List NPuzzle → Option (List NPuzzle)
  | 0, _, _ => none
  | _ + 1, [], _ => none
  | fuel + 1, path :: queue, visited =>
    match path with
    | [] => none
    | node :: _ =>
      if goal node then some path.reverse
      else
        bfsAux succs goal fuel
          (queue ++ ((succs node).filter
            (fun s => !visited.contains s)).map (fun s => s :: path))
          (visited ++ (succs node).filter (fun s => !visited.contains s))

/-- `bfs(&puzzle, NPuzzle::successors, NPuzzle::success)` as `main` calls it;
`successors` never panics here, so its `Option` is flattened with `[]` as the
(unreachable) panic value. -/
def bfs (start : NPuzzle) (fuel : Nat) : Option (List NPuzzle) :=
  bfsAux (fun p => p.successors.getD []) NPuzzle.success fuel [[start]] [start]

/-- Model of the closure `main` applies to a BFS/DFS/IDDFS result:
`|path| { let length = path.len(); (path, length) }` — the reported scalar is
the path length. -/
def report_with_length (path : List NPuzzle) : List NPuzzle × Nat :=
  (path, path.length)

/-- The BFS arm of `main`: run the search, then pair the path with the
reported statistic. -/
def bfs_main_result (start : NPuzzle) (fuel : Nat) :
    Option (List NPuzzle × Nat) :=
  (bfs start fuel).map report_with_length

/-! ### Concrete boards used by the repository's own tests -/

/-- The solved 3×3 board: `NPuzzle::new(3, [1..=8], (2, 2))`. -/
def solved3 : NPuzzle :=
  ⟨⟨3, [some 1, some 2, some 3, some 4, some 5, some 6, some 7, some 8,
    none]⟩, (2, 2)⟩

/-- The scrambled board of the `heuristics_when_not_solved` test:
`NPuzzle::new(3, [1,3,7,2,6,5,4,8], (0, 0))`. -/
def scrambled3 : NPuzzle :=
  ⟨⟨3, [none, some 1, some 3, some 7, some 2, some 6, some 5, some 4,
    some 8]⟩, (0, 0)⟩


/-! ### Indexed sums over the cell list

All three cell aggregations of the program — `num_incorrect`,
`taxicab_distance`, and the blank count used by the board invariant — are
sums of a per-cell weight over the flat data list.  `wsum` is that common
shape; the flat index starts at `base`. -/

/-- Sum of `f index cell` over a cell list, the index starting at `base`. -/
def wsum (f : Nat → Option Nat → Nat) : Nat → List (Option Nat) → Nat
  | _, [] => 0
  | i, a :: l => f i a + wsum f (i + 1) l

theorem wsum_zero_iff (f : Nat → Option Nat → Nat) (l : List (Option Nat))
    (base : Nat) :
    wsum f base l = 0 ↔ ∀ i, i < l.length → f (base + i) (l.getD i none) = 0 := by
  induction l generalizing base with
  | nil => simp [wsum]
  | cons a l ih =>
    simp only [wsum, Nat.add_eq_zero, List.length_cons]
    constructor
    · rintro ⟨h0, hrec⟩ i hi
      cases i with
      | zero => simpa using h0
      | succ n =>
        have h := (ih (base + 1)).mp hrec n (by omega)
        have e : base + 1 + n = base + (n + 1) := by omega
        rw [e] at h
        simpa using h
    · intro h
      refine ⟨by simpa using h 0 (by omega), (ih (base + 1)).mpr ?_⟩
      intro i hi
      have h := h (i + 1) (by omega)
      have e : base + (i + 1) = base + 1 + i := by omega
      rw [e] at h
      simpa using h

theorem wsum_mono (f g : Nat → Option Nat → Nat)
    (hfg : ∀ i a, f i a ≤ g i a) (base : Nat) (l : List (Option Nat)) :
    wsum f base l ≤ wsum g base l := by
  induction l generalizing base with
  | nil => simp [wsum]
  | cons a l ih => exact Nat.add_le_add (hfg _ _) (ih (base + 1))

theorem wsum_set (f : Nat → Option Nat → Nat) (l : List (Option Nat))
    (base i : Nat) (x : Option Nat) (h : i < l.length) :
    wsum f base (l.set i x) + f (base + i) (l.getD i none) =
      wsum f base l + f (base + i) x := by
  induction l generalizing base i with
  | nil => simp at h
  | cons a l ih =>
    cases i with
    | zero => simp only [List.set_cons_zero, wsum, List.getD_cons_zero,
        Nat.add_zero]; omega
    | succ n =>
      have hn : n < l.length := by simpa using h
      have h2 := ih (base + 1) n hn
      have e : base + 1 + n = base + (n + 1) := by omega
      rw [e] at h2
      simp only [List.set_cons_succ, wsum, List.getD_cons_succ]
      omega

theorem wsum_ge_one (f : Nat → Option Nat → Nat) (l : List (Option Nat))
    (base i : Nat) (h : i < l.length) :
    f (base + i) (l.getD i none) ≤ wsum f base l := by
  induction l generalizing base i with
  | nil => simp at h
  | cons a l ih =>
    cases i with
    | zero => simp [wsum]
    | succ n =>
      have hn : n < l.length := by simpa using h
      have h2 := ih (base + 1) n hn
      have e : base + 1 + n = base + (n + 1) := by omega
      rw [e] at h2
      simp only [wsum, List.getD_cons_succ]
      omega

theorem wsum_ge_pair (f : Nat → Option Nat → Nat) (l : List (Option Nat))
    (base i j : Nat) (hij : i < j) (hj : j < l.length) :
    f (base + i) (l.getD i none) + f (base + j) (l.getD j none) ≤
      wsum f base l := by
  induction l generalizing base i j with
  | nil => simp at hj
  | cons a l ih =>
    cases i with
    | zero =>
      cases j with
      | zero => omega
      | succ m =>
        have hm : m < l.length := by simpa using hj
        have h2 := wsum_ge_one f l (base + 1) m hm
        have e : base + 1 + m = base + (m + 1) := by omega
        rw [e] at h2
        simp only [wsum, List.getD_cons_zero, List.getD_cons_succ, Nat.add_zero]
        omega
    | succ n =>
      cases j with
      | zero => omega
      | succ m =>
        have h2 := ih (base + 1) n m (by omega) (by simpa using hj)
        have e1 : base + 1 + n = base + (n + 1) := by omega
        have e2 : base + 1 + m = base + (m + 1) := by omega
        rw [e1, e2] at h2
        simp only [wsum, List.getD_cons_succ]
        omega

/-- The two-`set` swap used by `Matrix::swap`, in additive form. -/
theorem wsum_swapData (f : Nat → Option Nat → Nat) (l : List (Option Nat))
    (base i j : Nat) (hij : i ≠ j) (hi : i < l.length) (hj : j < l.length) :
    wsum f base (swapData l i j) + f (base + i) (l.getD i none) +
        f (base + j) (l.getD j none) =
      wsum f base l + f (base + i) (l.getD j none) +
        f (base + j) (l.getD i none) := by
  have hset : (l.set i (l.getD j none)).getD j none = l.getD j none := by
    simp [List.getD_eq_getElem?_getD, List.getElem?_set_ne hij]
  have h1 := wsum_set f (l.set i (l.getD j none)) base j (l.getD i none)
    (by simpa using hj)
  have h2 := wsum_set f l base i (l.getD j none) hi
  rw [hset] at h1
  unfold swapData
  omega

theorem num_incorrect_aux (rows : Nat) (l : List (Option Nat)) (k i : Nat) :
    ((List.enumFrom k (itemsFrom rows i l)).filter (fun iv =>
      match iv.2.2 with
      | some v => decide (iv.1 ≠ v - 1)
      | none => false)).length = wsum incTerm k l := by
  induction l generalizing k i with
  | nil => simp [itemsFrom, wsum]
  | cons a l ih =>
    simp only [itemsFrom, List.enumFrom_cons, List.filter_cons]
    cases a with
    | none => simpa [wsum, incTerm] using ih (k + 1) (i + 1)
    | some v =>
      have h2 := ih (k + 1) (i + 1)
      by_cases h : k = v - 1
      · simpa [h, wsum, incTerm] using h2
      · simp [h, wsum, incTerm] at h2 ⊢
        omega

theorem num_incorrect_eq_wsum (p : NPuzzle) :
    p.num_incorrect = wsum incTerm 0 p.board.data := by
  have h := num_incorrect_aux p.board.rows p.board.data 0 0
  simpa [NPuzzle.num_incorrect, Board.items, List.enum] using h

theorem taxicab_aux (rows : Nat) (l : List (Option Nat)) (i : Nat) :
    (((itemsFrom rows i l).filterMap
        (fun pv => pv.2.map (fun v => (pv.1, v - 1)))).map
      (fun pv => Nat.dist pv.1.1 (pv.2 / rows) +
        Nat.dist pv.1.2 (pv.2 % rows))).sum = wsum (taxiTerm rows) i l := by
  induction l generalizing i with
  | nil => simp [itemsFrom, wsum]
  | cons a l ih =>
    cases a with
    | none => simpa [itemsFrom, wsum, taxiTerm] using ih (i + 1)
    | some v => simpa [itemsFrom, wsum, taxiTerm] using ih (i + 1)

theorem taxicab_eq_wsum (p : NPuzzle) :
    p.taxicab_distance = wsum (taxiTerm p.board.rows) 0 p.board.data := by
  have h := taxicab_aux p.board.rows p.board.data 0
  simpa [NPuzzle.taxicab_distance, Board.items] using h

theorem countP_eq_wsum (q : Option Nat → Bool) (l : List (Option Nat))
    (base : Nat) :
    l.countP q = wsum (fun _ c => if q c then 1 else 0) base l := by
  induction l generalizing base with
  | nil => simp [wsum]
  | cons a l ih =>
    rw [List.countP_cons, wsum, ih (base + 1)]
    cases h : q a
    · simp [h]
    · simp [h]
      omega

theorem countP_swapData (q : Option Nat → Bool) (l : List (Option Nat))
    (i j : Nat) (hij : i ≠ j) (hi : i < l.length) (hj : j < l.length) :
    (swapData l i j).countP q = l.countP q := by
  have h := wsum_swapData (fun _ c => if q c then 1 else 0) l 0 i j hij hi hj
  simp only [Nat.zero_add] at h
  rw [countP_eq_wsum q (swapData l i j) 0, countP_eq_wsum q l 0]
  omega

theorem nodup_of_count_ones {α : Type} [DecidableEq α] (l : List α)
    (h : ∀ c ∈ l, l.countP (fun x => decide (x = c)) = 1) : l.Nodup := by
  induction l with
  | nil => simp
  | cons a t ih =>
    have ha := h a (by simp)
    rw [List.countP_cons, if_pos (by simp)] at ha
    have hat : t.countP (fun x => decide (x = a)) = 0 := by omega
    have hmem : a ∉ t := by
      intro hm
      have := (List.countP_pos_iff (p := fun x => decide (x = a))).mpr
        ⟨a, hm, by simp⟩
      omega
    refine List.nodup_cons.mpr ⟨hmem, ih ?_⟩
    intro c hc
    have hca : a ≠ c := fun e => hmem (e ▸ hc)
    have := h c (by simp [hc])
    rwa [List.countP_cons, if_neg (by simpa using hca)] at this

theorem count_ones_of_nodup {α : Type} [DecidableEq α] (l : List α)
    (h : l.Nodup) : ∀ c ∈ l, l.countP (fun x => decide (x = c)) = 1 := by
  induction l with
  | nil => simp
  | cons a t ih =>
    rcases List.nodup_cons.mp h with ⟨hat, ht⟩
    intro c hc
    rcases List.mem_cons.mp hc with rfl | hct
    · rw [List.countP_cons, if_pos (by simp)]
      have : t.countP (fun x => decide (x = c)) = 0 := by
        rw [List.countP_eq_zero]
        intro x hx
        simp only [decide_eq_true_eq]
        exact fun e => hat (e ▸ hx)
      omega
    · have hac : ¬(a = c) := fun e => hat (e ▸ hct)
      rw [List.countP_cons, if_neg (by simpa using hac)]
      simpa using ih ht c hct

theorem getD_mem_of_lt (l : List (Option Nat)) (n : Nat) (h : n < l.length) :
    l.getD n none ∈ l := by
  induction l generalizing n with
  | nil => simp at h
  | cons a t ih =>
    cases n with
    | zero => simp
    | succ m =>
      have h2 := ih m (by simpa using h)
      rw [List.getD_cons_succ]
      exact List.mem_cons_of_mem a h2

theorem getD_set_self (l : List (Option Nat)) (i : Nat) (x : Option Nat)
    (h : i < l.length) : (l.set i x).getD i none = x := by
  induction l generalizing i with
  | nil => simp at h
  | cons a t ih =>
    cases i with
    | zero => simp
    | succ m => simpa using ih m (by simpa using h)

theorem getD_set_ne (l : List (Option Nat)) (i j : Nat) (x : Option Nat)
    (h : i ≠ j) : (l.set i x).getD j none = l.getD j none := by
  induction l generalizing i j with
  | nil => simp
  | cons a t ih =>
    cases i with
    | zero =>
      cases j with
      | zero => exact absurd rfl h
      | succ m => simp
    | succ n =>
      cases j with
      | zero => simp
      | succ m => simpa using ih n m (by omega)

theorem mem_swapData (l : List (Option Nat)) (i j : Nat) (hi : i < l.length)
    (hj : j < l.length) : ∀ c ∈ swapData l i j, c ∈ l := by
  intro c hc
  rcases List.mem_or_eq_of_mem_set hc with hc2 | rfl
  · rcases List.mem_or_eq_of_mem_set hc2 with hc3 | rfl
    · exact hc3
    · exact getD_mem_of_lt l j hj
  · exact getD_mem_of_lt l i hi

theorem nodup_swapData (l : List (Option Nat)) (i j : Nat) (hij : i ≠ j)
    (hi : i < l.length) (hj : j < l.length) (h : l.Nodup) :
    (swapData l i j).Nodup := by
  refine nodup_of_count_ones _ ?_
  intro c hc
  rw [countP_swapData _ l i j hij hi hj]
  exact count_ones_of_nodup l h c (mem_swapData l i j hi hj c hc)

theorem length_swapData (l : List (Option Nat)) (i j : Nat) :
    (swapData l i j).length = l.length := by
  simp [swapData]

theorem getD_swapData_left (l : List (Option Nat)) (i j : Nat) (hij : i ≠ j)
    (hi : i < l.length) : (swapData l i j).getD i none = l.getD j none := by
  rw [swapData, getD_set_ne _ _ _ _ (Ne.symm hij), getD_set_self _ _ _ hi]

theorem getD_swapData_right (l : List (Option Nat)) (i j : Nat)
    (hj : j < l.length) : (swapData l i j).getD j none = l.getD i none := by
  rw [swapData, getD_set_self _ _ _ (by simpa using hj)]

/-! ### Structure of `Matrix::neighbours` -/

theorem mem_neighbours (m : Board) (p q : Pos) (hp1 : p.1 < m.rows)
    (hp2 : p.2 < m.rows) :
    q ∈ m.neighbours p ↔
      q.1 < m.rows ∧ q.2 < m.rows ∧
        ((q.1 = p.1 ∧ Nat.dist q.2 p.2 = 1) ∨
          (q.2 = p.2 ∧ Nat.dist q.1 p.1 = 1)) := by
  unfold Board.neighbours
  rw [if_pos ⟨hp1, hp2⟩, List.mem_filter]
  constructor
  · rintro ⟨hmem, hpred⟩
    rw [List.mem_flatMap] at hmem
    obtain ⟨rr, hrr, hq⟩ := hmem
    rw [List.mem_map] at hq
    obtain ⟨cc, hcc, rfl⟩ := hq
    rw [List.mem_range'] at hrr hcc
    obtain ⟨ir, hir, rfl⟩ := hrr
    obtain ⟨ic, hic, rfl⟩ := hcc
    rw [bne_iff_ne, ne_eq, decide_eq_decide] at hpred
    by_cases hA : p.1 - 1 + 1 * ir = p.1
    · by_cases hB : p.2 - 1 + 1 * ic = p.2
      · exact absurd (iff_of_true hA hB) hpred
      · simp only [Nat.dist]
        omega
    · by_cases hB : p.2 - 1 + 1 * ic = p.2
      · simp only [Nat.dist]
        omega
      · exact absurd (iff_of_false hA hB) hpred
  · rintro ⟨hq1, hq2, hcase⟩
    have hbox1 : p.1 - 1 ≤ q.1 ∧ q.1 < min m.rows (p.1 + 2) := by
      rcases hcase with ⟨he, hd⟩ | ⟨he, hd⟩ <;> simp only [Nat.dist] at hd <;> omega
    have hbox2 : p.2 - 1 ≤ q.2 ∧ q.2 < min m.rows (p.2 + 2) := by
      rcases hcase with ⟨he, hd⟩ | ⟨he, hd⟩ <;> simp only [Nat.dist] at hd <;> omega
    refine ⟨List.mem_flatMap.mpr ⟨q.1, ?_, List.mem_map.mpr ⟨q.2, ?_, rfl⟩⟩, ?_⟩
    · rw [List.mem_range']
      exact ⟨q.1 - (p.1 - 1), by omega, by omega⟩
    · rw [List.mem_range']
      exact ⟨q.2 - (p.2 - 1), by omega, by omega⟩
    · simp only [bne_iff_ne, ne_eq, decide_eq_decide]
      rcases hcase with ⟨he, hd⟩ | ⟨he, hd⟩ <;> simp only [Nat.dist] at hd <;>
        intro hiff <;> omega

theorem length_filter_flatMap (R : List Nat) (f : Nat → List Pos)
    (pred : Pos → Bool) :
    ((R.flatMap f).filter pred).length =
      (R.map (fun rr => ((f rr).filter pred).length)).sum := by
  induction R with
  | nil => simp
  | cons a t ih => simp [List.flatMap_cons, List.filter_append, ih]


theorem length_filter_eq_one {C : List Nat} {c : Nat} (hC : C.Nodup)
    (hc : c ∈ C) : (C.filter (fun x => decide (x = c))).length = 1 := by
  rw [← List.countP_eq_length_filter]
  exact count_ones_of_nodup C hC c hc

theorem length_filter_ne_self {C : List Nat} {c : Nat} (hC : C.Nodup)
    (hc : c ∈ C) :
    (C.filter (fun x => !decide (x = c))).length = C.length - 1 := by
  have hsplit := List.length_eq_countP_add_countP (fun x => decide (x = c)) C
  have h1 : C.countP (fun x => decide (x = c)) = 1 :=
    count_ones_of_nodup C hC c hc
  have h2 : C.countP (fun a => decide ¬(decide (a = c) = true)) =
      C.countP (fun x => !decide (x = c)) := by
    apply List.countP_congr
    intro x hx
    simp
  rw [← List.countP_eq_length_filter]
  omega

theorem length_filter_pair_row (C : List Nat) (rr r c : Nat)
    (hC : C.Nodup) (hc : c ∈ C) :
    ((C.map (fun cc => (rr, cc))).filter
        (fun q => (decide (q.1 = r)) != (decide (q.2 = c)))).length =
      if rr = r then C.length - 1 else 1 := by
  rw [List.filter_map, List.length_map]
  by_cases h : rr = r
  · rw [if_pos h, List.filter_congr (q := fun x => !decide (x = c))
      (fun x hx => by simp [Function.comp, h])]
    exact length_filter_ne_self hC hc
  · rw [if_neg h, List.filter_congr (q := fun x => decide (x = c))
      (fun x hx => by simp [Function.comp, h])]
    exact length_filter_eq_one hC hc

theorem sum_map_one_eq_length (t : List Nat) :
    (t.map (fun _ => (1 : Nat))).sum = t.length := by
  induction t with
  | nil => simp
  | cons a t ih =>
    simp [ih]
    omega

theorem sum_map_ite_one (R : List Nat) (r A : Nat) (hR : R.Nodup)
    (hr : r ∈ R) :
    (R.map (fun rr => if rr = r then A else 1)).sum = A + (R.length - 1) := by
  induction R with
  | nil => simp at hr
  | cons a t ih =>
    rcases List.nodup_cons.mp hR with ⟨hat, ht⟩
    rcases List.mem_cons.mp hr with heq | hrt
    · rw [List.map_cons, List.sum_cons, if_pos heq.symm]
      have hnotin : r ∉ t := by rw [heq]; exact hat
      have hall : t.map (fun rr => if rr = r then A else 1) =
          t.map (fun _ => 1) := by
        apply List.map_congr_left
        intro x hx
        have hxr : x ≠ r := fun e => hnotin (e ▸ hx)
        rw [if_neg hxr]
      rw [hall, sum_map_one_eq_length]
      simp only [List.length_cons]
      omega
    · have har : a ≠ r := fun e => hat (e ▸ hrt)
      rw [List.map_cons, List.sum_cons, if_neg har, ih ht hrt]
      have hpos : 0 < t.length := List.length_pos_of_mem hrt
      simp only [List.length_cons]
      omega

theorem neighbours_length (m : Board) (p : Pos) (hp1 : p.1 < m.rows)
    (hp2 : p.2 < m.rows) :
    (m.neighbours p).length =
      (min m.rows (p.1 + 2) - (p.1 - 1) - 1) +
        (min m.rows (p.2 + 2) - (p.2 - 1) - 1) := by
  unfold Board.neighbours
  rw [if_pos ⟨hp1, hp2⟩]
  rw [length_filter_flatMap]
  have hCn : (List.range' (p.2 - 1) (min m.rows (p.2 + 2) - (p.2 - 1))).Nodup :=
    List.nodup_range' _ _
  have hCc : p.2 ∈ List.range' (p.2 - 1) (min m.rows (p.2 + 2) - (p.2 - 1)) := by
    rw [List.mem_range']
    exact ⟨p.2 - (p.2 - 1), by omega, by omega⟩
  have hmapped : (List.range' (p.1 - 1) (min m.rows (p.1 + 2) - (p.1 - 1))).map
      (fun rr => (((List.range' (p.2 - 1)
          (min m.rows (p.2 + 2) - (p.2 - 1))).map (fun cc => (rr, cc))).filter
        (fun q => (decide (q.1 = p.1)) != (decide (q.2 = p.2)))).length) =
      (List.range' (p.1 - 1) (min m.rows (p.1 + 2) - (p.1 - 1))).map
        (fun rr => if rr = p.1
          then (min m.rows (p.2 + 2) - (p.2 - 1)) - 1 else 1) := by
    apply List.map_congr_left
    intro rr hrr
    rw [length_filter_pair_row _ rr p.1 p.2 hCn hCc, List.length_range']
  rw [hmapped, sum_map_ite_one _ p.1 _ (List.nodup_range' _ _) ?hr,
    List.length_range']
  case hr =>
    rw [List.mem_range']
    exact ⟨p.1 - (p.1 - 1), by omega, by omega⟩
  omega

/-! ### Successors produce one board per neighbour -/

theorem collectMoves_all_some (f : Pos → Option NPuzzle) (g : Pos → NPuzzle)
    (l : List Pos) (h : ∀ q ∈ l, f q = some (g q)) :
    collectMoves f l = some (l.map g) := by
  induction l with
  | nil => simp [collectMoves]
  | cons a t ih =>
    have ha := h a (by simp)
    have ht := ih (fun q hq => h q (by simp [hq]))
    simp [collectMoves, ha, ht]

theorem neighbour_ne_center (m : Board) (p q : Pos) (hp1 : p.1 < m.rows)
    (hp2 : p.2 < m.rows) (hq : q ∈ m.neighbours p) : q ≠ p := by
  rcases (mem_neighbours m p q hp1 hp2).mp hq with ⟨h1, h2, hc⟩
  rcases hc with ⟨he, hd⟩ | ⟨he, hd⟩ <;> simp only [Nat.dist] at hd <;>
    intro hqp <;> rw [hqp] at hd <;> omega

theorem move_blank_of_neighbour (p : NPuzzle) (q : Pos)
    (hp1 : p.blank_position.1 < p.board.rows)
    (hp2 : p.blank_position.2 < p.board.rows)
    (hq : q ∈ p.board.neighbours p.blank_position) :
    p.move_blank q = some ⟨p.board.swap p.blank_position q, q⟩ := by
  rcases (mem_neighbours _ _ _ hp1 hp2).mp hq with ⟨h1, h2, _⟩
  have hne : p.blank_position ≠ q :=
    fun e => neighbour_ne_center _ _ _ hp1 hp2 hq e.symm
  rw [NPuzzle.move_blank, if_neg hne, if_pos ⟨hp1, hp2, h1, h2⟩]

theorem successors_eq_map (p : NPuzzle)
    (hp1 : p.blank_position.1 < p.board.rows)
    (hp2 : p.blank_position.2 < p.board.rows) :
    p.successors = some ((p.board.neighbours p.blank_position).map
      (fun q => ⟨p.board.swap p.blank_position q, q⟩)) :=
  collectMoves_all_some _ _ _
    (fun q hq => move_blank_of_neighbour p q hp1 hp2 hq)

/-! ### Flat index arithmetic -/

theorem idx_lt_of_bounds (n r c : Nat) (hr : r < n) (hc : c < n) :
    n * r + c < n * n := by
  have h1 : n * (r + 1) ≤ n * n := Nat.mul_le_mul_left n hr
  have h2 : n * (r + 1) = n * r + n := by ring
  omega

theorem idx_inj (n r1 c1 r2 c2 : Nat) (hc1 : c1 < n) (hc2 : c2 < n)
    (h : n * r1 + c1 = n * r2 + c2) : r1 = r2 ∧ c1 = c2 := by
  have h1 : (n * r1 + c1) % n = c1 := by
    rw [Nat.mul_add_mod, Nat.mod_eq_of_lt hc1]
  have h2 : (n * r2 + c2) % n = c2 := by
    rw [Nat.mul_add_mod, Nat.mod_eq_of_lt hc2]
  have hc : c1 = c2 := by rw [← h1, ← h2, h]
  have hn : 0 < n := by omega
  have hr : r1 = r2 := Nat.eq_of_mul_eq_mul_left hn (by omega)
  exact ⟨hr, hc⟩

/-! ### Successful construction, exactly as `NPuzzle::new` assembles it -/

theorem sqrtAux_sq_le (n : Nat) : ∀ k, sqrtAux n k * sqrtAux n k ≤ n := by
  intro k
  induction k with
  | zero => simp [sqrtAux]
  | succ m ih =>
    rw [sqrtAux]
    by_cases h : (m + 1) * (m + 1) ≤ n
    · rw [if_pos h]
      exact h
    · rw [if_neg h]
      exact ih

theorem sqrtAux_maximal (n : Nat) :
    ∀ k s, s ≤ k → s * s ≤ n → s ≤ sqrtAux n k := by
  intro k
  induction k with
  | zero =>
    intro s hs _
    simpa [sqrtAux] using hs
  | succ m ih =>
    intro s hs hsq
    rw [sqrtAux]
    by_cases h : (m + 1) * (m + 1) ≤ n
    · rw [if_pos h]
      exact hs
    · rw [if_neg h]
      apply ih
      · rcases Nat.lt_or_ge s (m + 1) with hlt | hge
        · omega
        · exfalso
          apply h
          calc (m + 1) * (m + 1) ≤ s * s := Nat.mul_le_mul hge hge
          _ ≤ n := hsq
      · exact hsq

theorem isqrt_mul_self (n : Nat) : isqrt (n * n) = n := by
  have hle : n ≤ n * n := by
    rcases Nat.eq_zero_or_pos n with rfl | hp
    · simp
    · calc n = n * 1 := by omega
      _ ≤ n * n := Nat.mul_le_mul_left n hp
  have h1 : n ≤ isqrt (n * n) :=
    sqrtAux_maximal (n * n) (n * n) n hle (Nat.le_refl _)
  have h2 : isqrt (n * n) * isqrt (n * n) ≤ n * n := sqrtAux_sq_le _ _
  have h3 : isqrt (n * n) ≤ n := by
    by_contra hc
    have hgt : n + 1 ≤ isqrt (n * n) := by omega
    have := Nat.mul_le_mul hgt hgt
    have hlt : n * n < (n + 1) * (n + 1) := by
      rw [Nat.mul_succ, Nat.succ_mul]
      omega
    omega
  omega

theorem board_pieces_spec (size : Nat) (tiles : List Nat) (bp : Pos)
    (hlen : tiles.length = size * size - 1)
    (h1 : bp.1 < size) (h2 : bp.2 < size) :
    NPuzzle.board_pieces size tiles bp =
      (tiles.map some).take (size * bp.1 + bp.2) ++ [none] ++
        (tiles.map some).drop (size * bp.1 + bp.2) := by
  have hbi : size * bp.1 + bp.2 < size * size :=
    idx_lt_of_bounds size bp.1 bp.2 h1 h2
  have hrest : ((tiles.map some).drop (size * bp.1 + bp.2)).take
      (size * size - (size * bp.1 + bp.2) - 1) =
      (tiles.map some).drop (size * bp.1 + bp.2) := by
    apply List.take_of_length_le
    rw [List.length_drop, List.length_map, hlen]
    omega
  simp only [NPuzzle.board_pieces]
  rw [if_pos hbi, hrest, List.append_assoc]

theorem new_ok_spec (size : Nat) (tiles : List Nat) (bp : Pos)
    (hlen : tiles.length = size * size - 1)
    (h1 : bp.1 < size) (h2 : bp.2 < size) :
    NPuzzle.new size tiles bp =
      .ok ⟨⟨size, (tiles.map some).take (size * bp.1 + bp.2) ++ [none] ++
        (tiles.map some).drop (size * bp.1 + bp.2)⟩, bp⟩ := by
  have hbi : size * bp.1 + bp.2 < size * size :=
    idx_lt_of_bounds size bp.1 bp.2 h1 h2
  have hplen : ((tiles.map some).take (size * bp.1 + bp.2) ++ [none] ++
      (tiles.map some).drop (size * bp.1 + bp.2)).length = size * size := by
    rw [List.length_append, List.length_append, List.length_take,
      List.length_drop, List.length_map, hlen]
    rw [Nat.min_def]
    split <;> simp <;> omega
  unfold NPuzzle.new
  rw [board_pieces_spec size tiles bp hlen h1 h2]
  unfold square_from_vec
  rw [hplen, isqrt_mul_self size, if_pos rfl]
  rfl

theorem splice_getD_self (l : List (Option Nat)) (n : Nat) (hn : n ≤ l.length) :
    ((l.take n ++ [none]) ++ l.drop n).getD n none = none := by
  have hA : (l.take n).length = n := by rw [List.length_take]; omega
  rw [List.append_assoc, List.getD_append_right _ _ none n (by omega), hA,
    Nat.sub_self, List.singleton_append, List.getD_cons_zero]

theorem splice_getD_left (l : List (Option Nat)) (n i : Nat) (hi : i < n)
    (hn : n ≤ l.length) :
    ((l.take n ++ [none]) ++ l.drop n).getD i none = l.getD i none := by
  have hA : (l.take n).length = n := by rw [List.length_take]; omega
  rw [List.append_assoc, List.getD_append _ _ none i (by omega)]
  rw [List.getD_eq_getElem?_getD, List.getD_eq_getElem?_getD,
    List.getElem?_take, if_pos hi]

theorem splice_getD_right (l : List (Option Nat)) (n i : Nat)
    (hn : n ≤ l.length) (hi : n < i) :
    ((l.take n ++ [none]) ++ l.drop n).getD i none = l.getD (i - 1) none := by
  have hA : (l.take n).length = n := by rw [List.length_take]; omega
  rw [List.append_assoc, List.getD_append_right _ _ none i (by omega), hA,
    List.singleton_append]
  have he : i - n = (i - n - 1) + 1 := by omega
  rw [he, List.getD_cons_succ]
  rw [List.getD_eq_getElem?_getD, List.getD_eq_getElem?_getD,
    List.getElem?_drop]
  have he2 : n + (i - n - 1) = i - 1 := by omega
  rw [he2]

theorem valid_new (size : Nat) (tiles : List Nat) (bp : Pos)
    (hlen : tiles.length = size * size - 1)
    (h1 : bp.1 < size) (h2 : bp.2 < size)
    (hrange : ∀ v ∈ tiles, 1 ≤ v ∧ v ≤ size * size - 1)
    (hnd : tiles.Nodup) :
    ∃ b, NPuzzle.new size tiles bp = .ok b ∧ Valid b ∧
      b.board.rows = size ∧ b.blank_position = bp := by
  have hbi : size * bp.1 + bp.2 < size * size :=
    idx_lt_of_bounds size bp.1 bp.2 h1 h2
  have hmlen : (tiles.map some).length = size * size - 1 := by
    rw [List.length_map, hlen]
  have hble : size * bp.1 + bp.2 ≤ (tiles.map some).length := by omega
  refine ⟨_, new_ok_spec size tiles bp hlen h1 h2, ?_, rfl, rfl⟩
  have hdata : ((tiles.map some).take (size * bp.1 + bp.2) ++ [none] ++
      (tiles.map some).drop (size * bp.1 + bp.2)).length = size * size := by
    rw [List.length_append, List.length_append, List.length_take,
      List.length_drop, hmlen, Nat.min_def]
    split <;> simp <;> omega
  refine ⟨hdata, h1, h2, ?_, ?_, ?_, ?_⟩
  · show ((tiles.map some).take (size * bp.1 + bp.2) ++ [none] ++
        (tiles.map some).drop (size * bp.1 + bp.2)).getD
        (size * (bp.1) + bp.2) none = none
    exact splice_getD_self _ _ hble
  · show ((tiles.map some).take (size * bp.1 + bp.2) ++ [none] ++
        (tiles.map some).drop (size * bp.1 + bp.2)).countP
        (fun c : Option Nat => c.isNone) = 1
    rw [List.countP_append, List.countP_append]
    have hz1 : ((tiles.map some).take (size * bp.1 + bp.2)).countP
        (fun c : Option Nat => c.isNone) = 0 := by
      rw [List.countP_eq_zero]
      intro a ha
      have := List.take_subset _ _ ha
      rcases List.mem_map.mp this with ⟨v, _, rfl⟩
      simp
    have hz2 : ((tiles.map some).drop (size * bp.1 + bp.2)).countP
        (fun c : Option Nat => c.isNone) = 0 := by
      rw [List.countP_eq_zero]
      intro a ha
      have := List.drop_subset _ _ ha
      rcases List.mem_map.mp this with ⟨v, _, rfl⟩
      simp
    rw [hz1, hz2]
    simp
  · show ((tiles.map some).take (size * bp.1 + bp.2) ++ [none] ++
        (tiles.map some).drop (size * bp.1 + bp.2)).all
        (tileOK (size * size - 1)) = true
    rw [List.all_eq_true]
    intro c hc
    rcases List.mem_append.mp hc with hc2 | hcd
    · rcases List.mem_append.mp hc2 with hct | hcn
      · rcases List.mem_map.mp (List.take_subset _ _ hct) with ⟨v, hv, rfl⟩
        simpa [tileOK] using hrange v hv
      · rcases List.mem_singleton.mp hcn with rfl
        simp [tileOK]
    · rcases List.mem_map.mp (List.drop_subset _ _ hcd) with ⟨v, hv, rfl⟩
      simpa [tileOK] using hrange v hv
  · show ((tiles.map some).take (size * bp.1 + bp.2) ++ [none] ++
        (tiles.map some).drop (size * bp.1 + bp.2)).Nodup
    rw [List.append_assoc, List.singleton_append, List.nodup_middle,
      List.take_append_drop]
    rw [List.nodup_cons]
    constructor
    · intro hmem
      rcases List.mem_map.mp hmem with ⟨v, _, hv⟩
      exact Option.noConfusion hv
    · exact hnd.map (fun a b => by simp)

theorem valid_move_blank (p : NPuzzle) (q : Pos) (hv : Valid p)
    (hq : q ∈ p.board.neighbours p.blank_position) :
    ∃ s, p.move_blank q = some s ∧ Valid s ∧ s.blank_position = q ∧
      s.board.rows = p.board.rows ∧
      s.board.data = swapData p.board.data
        (p.board.idx p.blank_position) (p.board.idx q) := by
  obtain ⟨hlen, hb1, hb2, hblank, hcount, hall, hnd⟩ := hv
  rcases (mem_neighbours _ _ _ hb1 hb2).mp hq with ⟨hq1, hq2, _⟩
  have hne : q ≠ p.blank_position := neighbour_ne_center _ _ _ hb1 hb2 hq
  have hi : p.board.idx p.blank_position < p.board.data.length := by
    rw [hlen]
    exact idx_lt_of_bounds _ _ _ hb1 hb2
  have hj : p.board.idx q < p.board.data.length := by
    rw [hlen]
    exact idx_lt_of_bounds _ _ _ hq1 hq2
  have hij : p.board.idx p.blank_position ≠ p.board.idx q := by
    intro he
    simp only [Board.idx] at he
    rcases idx_inj p.board.rows _ _ _ _ hb2 hq2 he with ⟨e1, e2⟩
    exact hne (Prod.ext e1.symm e2.symm)
  refine ⟨_, move_blank_of_neighbour p q hb1 hb2 hq, ?_, rfl, rfl, rfl⟩
  refine ⟨?_, hq1, hq2, ?_, ?_, ?_, ?_⟩
  · show (swapData p.board.data (p.board.idx p.blank_position)
        (p.board.idx q)).length = p.board.rows * p.board.rows
    rw [length_swapData, hlen]
  · show (swapData p.board.data (p.board.idx p.blank_position)
        (p.board.idx q)).getD (p.board.idx q) none = none
    rw [getD_swapData_right _ _ _ hj]
    exact hblank
  · show (swapData p.board.data (p.board.idx p.blank_position)
        (p.board.idx q)).countP (fun c : Option Nat => c.isNone) = 1
    rw [countP_swapData _ _ _ _ hij hi hj]
    exact hcount
  · show (swapData p.board.data (p.board.idx p.blank_position)
        (p.board.idx q)).all
        (tileOK (p.board.rows * p.board.rows - 1)) = true
    rw [List.all_eq_true]
    intro c hc
    exact List.all_eq_true.mp hall c (mem_swapData _ _ _ hi hj c hc)
  · show (swapData p.board.data (p.board.idx p.blank_position)
        (p.board.idx q)).Nodup
    exact nodup_swapData _ _ _ hij hi hj hnd

/-! ### One move changes the heuristics by exactly the documented amount -/

theorem other_cell_isSome (l : List (Option Nat)) (i j : Nat) (hij : i ≠ j)
    (hi : i < l.length) (hj : j < l.length)
    (hcount : l.countP (fun c : Option Nat => c.isNone) = 1)
    (hnone : l.getD i none = none) : ∃ v, l.getD j none = some v := by
  cases hgj : l.getD j none with
  | some v => exact ⟨v, rfl⟩
  | none =>
    exfalso
    rw [countP_eq_wsum _ _ 0] at hcount
    rcases Nat.lt_or_ge i j with hlt | hge
    · have h := wsum_ge_pair
        (fun _ c => if (fun c : Option Nat => c.isNone) c then 1 else 0)
        l 0 i j hlt hj
      simp only [Nat.zero_add, hnone, hgj] at h
      simp at h hcount
      omega
    · have hlt : j < i := by omega
      have h := wsum_ge_pair
        (fun _ c => if (fun c : Option Nat => c.isNone) c then 1 else 0)
        l 0 j i hlt hi
      simp only [Nat.zero_add, hnone, hgj] at h
      simp at h hcount
      omega

theorem wsum_move (f : Nat → Option Nat → Nat) (l : List (Option Nat))
    (i j : Nat) (hij : i ≠ j) (hi : i < l.length) (hj : j < l.length)
    (hni : l.getD i none = none) (v : Nat) (hvj : l.getD j none = some v)
    (hfnone : ∀ k, f k none = 0) :
    wsum f 0 (swapData l i j) + f j (some v) = wsum f 0 l + f i (some v) := by
  have h := wsum_swapData f l 0 i j hij hi hj
  simp only [Nat.zero_add] at h
  rw [hni, hvj, hfnone i, hfnone j] at h
  omega

theorem dist_shift (s fj l fi : Nat) (h : s + fj = l + fi) :
    Nat.dist l s = Nat.dist fi fj := by
  simp only [Nat.dist]
  omega

theorem idx_div_mod (n r c : Nat) (hn : 0 < n) (hc : c < n) :
    (n * r + c) / n = r ∧ (n * r + c) % n = c := by
  constructor
  · rw [Nat.mul_add_div hn, Nat.div_eq_of_lt hc]
    omega
  · rw [Nat.mul_add_mod, Nat.mod_eq_of_lt hc]

theorem taxiTerm_some (n i v : Nat) :
    taxiTerm n i (some v) = Nat.dist (i / n) ((v - 1) / n) +
      Nat.dist (i % n) ((v - 1) % n) := rfl

theorem taxiTerm_adjacent (n r0 c0 r1 c1 v : Nat) (hn : 0 < n)
    (hc0 : c0 < n) (hc1 : c1 < n)
    (hadj : (r0 = r1 ∧ Nat.dist c0 c1 = 1) ∨ (c0 = c1 ∧ Nat.dist r0 r1 = 1)) :
    Nat.dist (taxiTerm n (n * r0 + c0) (some v))
      (taxiTerm n (n * r1 + c1) (some v)) = 1 := by
  obtain ⟨hd0, hm0⟩ := idx_div_mod n r0 c0 hn hc0
  obtain ⟨hd1, hm1⟩ := idx_div_mod n r1 c1 hn hc1
  rw [taxiTerm_some, taxiTerm_some, hd0, hm0, hd1, hm1]
  generalize (v - 1) / n = a
  generalize (v - 1) % n = b
  rcases hadj with ⟨he, hd⟩ | ⟨he, hd⟩
  · subst he
    simp only [Nat.dist] at hd ⊢
    omega
  · subst he
    simp only [Nat.dist] at hd ⊢
    omega

theorem incTerm_le_one (k : Nat) (c : Option Nat) : incTerm k c ≤ 1 := by
  cases c with
  | none => simp [incTerm]
  | some v =>
    simp only [incTerm]
    split
    · omega
    · omega

theorem heuristics_step (p : NPuzzle) (q : Pos) (hv : Valid p)
    (hq : q ∈ p.board.neighbours p.blank_position) (s : NPuzzle)
    (hs : p.move_blank q = some s) :
    Nat.dist p.num_incorrect s.num_incorrect ≤ 1 ∧
      Nat.dist p.taxicab_distance s.taxicab_distance = 1 := by
  obtain ⟨hlen, hb1, hb2, hblank, hcount, hall, hnd⟩ := hv
  have hs2 := move_blank_of_neighbour p q hb1 hb2 hq
  rw [hs2] at hs
  injection hs with hs3
  subst hs3
  rcases (mem_neighbours _ _ _ hb1 hb2).mp hq with ⟨hq1, hq2, hadj⟩
  have hn : 0 < p.board.rows := by omega
  have hi : p.board.idx p.blank_position < p.board.data.length := by
    rw [hlen]
    exact idx_lt_of_bounds _ _ _ hb1 hb2
  have hj : p.board.idx q < p.board.data.length := by
    rw [hlen]
    exact idx_lt_of_bounds _ _ _ hq1 hq2
  have hne : q ≠ p.blank_position := neighbour_ne_center _ _ _ hb1 hb2 hq
  have hij : p.board.idx p.blank_position ≠ p.board.idx q := by
    intro he
    simp only [Board.idx] at he
    rcases idx_inj p.board.rows _ _ _ _ hb2 hq2 he with ⟨e1, e2⟩
    exact hne (Prod.ext e1.symm e2.symm)
  obtain ⟨v, hvj⟩ := other_cell_isSome p.board.data _ _ hij hi hj hcount hblank
  have hsdata : (NPuzzle.mk (p.board.swap p.blank_position q) q).board.data =
      swapData p.board.data (p.board.idx p.blank_position) (p.board.idx q) :=
    rfl
  have hsrows : (NPuzzle.mk (p.board.swap p.blank_position q) q).board.rows =
      p.board.rows := rfl
  constructor
  · rw [num_incorrect_eq_wsum, num_incorrect_eq_wsum, hsdata]
    have hmove := wsum_move incTerm p.board.data _ _ hij hi hj hblank v hvj
      (fun k => rfl)
    have hdist := dist_shift _ _ _ _ hmove
    rw [hdist]
    have h1 := incTerm_le_one (p.board.idx p.blank_position) (some v)
    have h2 := incTerm_le_one (p.board.idx q) (some v)
    simp only [Nat.dist]
    omega
  · rw [taxicab_eq_wsum, taxicab_eq_wsum, hsdata, hsrows]
    have hmove := wsum_move (taxiTerm p.board.rows) p.board.data _ _ hij hi hj
      hblank v hvj (fun k => rfl)
    have hdist := dist_shift _ _ _ _ hmove
    rw [hdist]
    show Nat.dist
      (taxiTerm p.board.rows
        (p.board.rows * p.blank_position.1 + p.blank_position.2) (some v))
      (taxiTerm p.board.rows (p.board.rows * q.1 + q.2) (some v)) = 1
    apply taxiTerm_adjacent _ _ _ _ _ _ hn hb2 hq2
    rcases hadj with ⟨he, hd⟩ | ⟨he, hd⟩
    · left
      simp only [Nat.dist] at hd ⊢
      omega
    · right
      simp only [Nat.dist] at hd ⊢
      omega

/-! ### The canonical solved configuration, and heuristic comparison -/

theorem none_unique (l : List (Option Nat)) (i j : Nat) (hi : i < l.length)
    (hj : j < l.length)
    (hcount : l.countP (fun c : Option Nat => c.isNone) = 1)
    (hni : l.getD i none = none) (hnj : l.getD j none = none) : i = j := by
  by_contra hne
  obtain ⟨v, hv⟩ := other_cell_isSome l i j hne hi hj hcount hni
  rw [hnj] at hv
  exact Option.noConfusion hv

theorem incTerm_le_taxiTerm (n i : Nat) (c : Option Nat) :
    incTerm i c ≤ taxiTerm n i c := by
  cases c with
  | none => simp [incTerm, taxiTerm]
  | some v =>
    by_cases h : i = v - 1
    · simp [incTerm, h]
    · have hone : incTerm i (some v) = 1 := by simp [incTerm, h]
      rw [hone, taxiTerm_some]
      have hne : ¬(i / n = (v - 1) / n ∧ i % n = (v - 1) % n) := by
        rintro ⟨hd, hm⟩
        apply h
        have h1 := Nat.div_add_mod i n
        have h2 := Nat.div_add_mod (v - 1) n
        rw [hd, hm] at h1
        omega
      rcases Nat.eq_zero_or_pos (Nat.dist (i / n) ((v - 1) / n) +
        Nat.dist (i % n) ((v - 1) % n)) with hz | hp
      · exfalso
        apply hne
        simp only [Nat.dist] at hz
        constructor
        · omega
        · omega
      · omega

/-! ### Claims -/

/-- Claim C2: for every board, the misplaced-tile count is less than or
equal to the taxicab (Manhattan) distance. -/
theorem claims_C2 (p : NPuzzle) :
    p.num_incorrect ≤ p.taxicab_distance := by
  rw [num_incorrect_eq_wsum, taxicab_eq_wsum]
  exact wsum_mono _ _ (fun i a => incTerm_le_taxiTerm p.board.rows i a) 0 _

/-- Claim C1: for every validly constructed board, the goal test `success`
returns true iff `num_incorrect` is 0, and that holds iff every cell's tile
label equals `row*n + col + 1` in row-major order — the canonical solved
configuration, which forces the blank into the last cell. -/
theorem claims_C1 (p : NPuzzle) (hv : Valid p) :
    (p.success = true ↔ p.num_incorrect = 0) ∧
      (p.num_incorrect = 0 ↔ canonical p) := by
  obtain ⟨hlen, hb1, hb2, hblank, hcount, hall, hnd⟩ := hv
  have hn : 0 < p.board.rows := by omega
  have hnn : 1 ≤ p.board.rows * p.board.rows :=
    Nat.mul_le_mul hn hn
  constructor
  · simp [NPuzzle.success]
  · rw [num_incorrect_eq_wsum, wsum_zero_iff]
    have hidxlast : p.board.rows * p.board.rows - 1 <
        p.board.data.length := by
      rw [hlen]
      omega
    constructor
    · intro hz
      have hz2 : ∀ i, i < p.board.data.length →
          incTerm i (p.board.data.getD i none) = 0 := by
        intro i hi
        have h := hz i hi
        simpa using h
      have hlast : p.board.data.getD
          (p.board.rows * p.board.rows - 1) none = none := by
        cases hg : p.board.data.getD (p.board.rows * p.board.rows - 1) none with
        | none => rfl
        | some v =>
          exfalso
          have h0 := hz2 _ hidxlast
          rw [hg] at h0
          have hv1 : p.board.rows * p.board.rows - 1 = v - 1 := by
            by_contra hne
            simp [incTerm, hne] at h0
          have hvmem : some v ∈ p.board.data := by
            rw [← hg]
            exact getD_mem_of_lt _ _ hidxlast
          have hrange := List.all_eq_true.mp hall _ hvmem
          simp [tileOK] at hrange
          omega
      have hbidx : p.board.idx p.blank_position =
          p.board.rows * p.board.rows - 1 := by
        apply none_unique p.board.data _ _ ?_ hidxlast hcount hblank hlast
        rw [hlen]
        exact idx_lt_of_bounds _ _ _ hb1 hb2
      have hbp : p.blank_position =
          (p.board.rows - 1, p.board.rows - 1) := by
        have hexp : p.board.rows * (p.board.rows - 1) + (p.board.rows - 1) =
            p.board.rows * p.board.rows - 1 := by
          obtain ⟨m, hm⟩ : ∃ m, p.board.rows = m + 1 :=
            ⟨p.board.rows - 1, by omega⟩
          rw [hm]
          simp only [Nat.add_sub_cancel]
          rw [Nat.mul_succ]
          omega
        have he : p.board.rows * p.blank_position.1 + p.blank_position.2 =
            p.board.rows * (p.board.rows - 1) + (p.board.rows - 1) := by
          simp only [Board.idx] at hbidx
          rw [hexp]
          exact hbidx
        rcases idx_inj _ _ _ _ _ hb2 (by omega) he with ⟨e1, e2⟩
        exact Prod.ext e1 e2
      refine ⟨?_, hbp⟩
      intro r c hr hc
      have hi : p.board.rows * r + c < p.board.data.length := by
        rw [hlen]
        exact idx_lt_of_bounds _ _ _ hr hc
      by_cases hce : p.board.rows * r + c = p.board.rows * p.board.rows - 1
      · rw [if_pos hce, hce]
        exact hlast
      · rw [if_neg hce]
        obtain ⟨v, hv2⟩ := other_cell_isSome p.board.data
          (p.board.idx p.blank_position) (p.board.rows * r + c)
          (by rw [hbidx]; exact fun e => hce e.symm)
          (by rw [hlen]; exact idx_lt_of_bounds _ _ _ hb1 hb2)
          hi hcount hblank
        have h0 := hz2 _ hi
        rw [hv2] at h0
        have hveq : p.board.rows * r + c = v - 1 := by
          by_contra hne
          simp [incTerm, hne] at h0
        have hvmem : some v ∈ p.board.data := by
          rw [← hv2]
          exact getD_mem_of_lt _ _ hi
        have hrange := List.all_eq_true.mp hall _ hvmem
        simp [tileOK] at hrange
        rw [hv2]
        simp only [Option.some.injEq]
        omega
    · rintro ⟨hcells, hbp⟩ i hi
      simp only [Nat.zero_add]
      have hr : i / p.board.rows < p.board.rows := by
        rw [hlen] at hi
        rw [Nat.div_lt_iff_lt_mul hn]
        omega
      have hc : i % p.board.rows < p.board.rows := Nat.mod_lt _ hn
      have he : p.board.rows * (i / p.board.rows) + i % p.board.rows = i :=
        Nat.div_add_mod i p.board.rows
      have hcell := hcells _ _ hr hc
      rw [he] at hcell
      rw [hcell]
      by_cases hce : i = p.board.rows * p.board.rows - 1
      · rw [if_pos hce]
        simp [incTerm]
      · rw [if_neg hce]
        simp [incTerm]

theorem claims_C1_witness :
    Valid solved3 ∧
      ((solved3.success = true ↔ solved3.num_incorrect = 0) ∧
        (solved3.num_incorrect = 0 ↔ canonical solved3)) :=
  ⟨by decide, claims_C1 solved3 (by decide)⟩

/-- Claim C3: both heuristics are consistent — for every valid board and
every successor produced by one blank move, the misplaced-tile count changes
by at most 1 and the taxicab distance changes by exactly 1. -/
theorem claims_C3 (p : NPuzzle) (hv : Valid p) (ss : List NPuzzle)
    (hss : p.successors = some ss) :
    ∀ s ∈ ss, Nat.dist p.num_incorrect s.num_incorrect ≤ 1 ∧
      Nat.dist p.taxicab_distance s.taxicab_distance = 1 := by
  intro s hs
  have hmap := successors_eq_map p hv.2.1 hv.2.2.1
  rw [hmap] at hss
  injection hss with he
  subst he
  rcases List.mem_map.mp hs with ⟨q, hq, rfl⟩
  exact heuristics_step p q hv hq _
    (move_blank_of_neighbour p q hv.2.1 hv.2.2.1 hq)

theorem claims_C3_witness :
    Nat.dist scrambled3.num_incorrect
      (NPuzzle.mk (Board.mk 3 [some 1, none, some 3, some 7, some 2, some 6,
        some 5, some 4, some 8]) (0, 1)).num_incorrect ≤ 1 ∧
      Nat.dist scrambled3.taxicab_distance
        (NPuzzle.mk (Board.mk 3 [some 1, none, some 3, some 7, some 2, some 6,
          some 5, some 4, some 8]) (0, 1)).taxicab_distance = 1 :=
  claims_C3 scrambled3 (by decide)
    [⟨⟨3, [some 1, none, some 3, some 7, some 2, some 6, some 5, some 4,
      some 8]⟩, (0, 1)⟩,
     ⟨⟨3, [some 7, some 1, some 3, none, some 2, some 6, some 5, some 4,
      some 8]⟩, (1, 0)⟩] (by decide) _ (by decide)

theorem bfsAux_ne_nil (succs : NPuzzle → List NPuzzle)
    (goal : NPuzzle → Bool) :
    ∀ fuel queue visited path,
      bfsAux succs goal fuel queue visited = some path → path ≠ [] := by
  intro fuel
  induction fuel with
  | zero =>
    intro queue visited path h
    simp [bfsAux] at h
  | succ n ih =>
    intro queue visited path h
    cases queue with
    | nil => simp [bfsAux] at h
    | cons p0 rest =>
      cases p0 with
      | nil => simp [bfsAux] at h
      | cons node tl =>
        simp only [bfsAux] at h
        by_cases hg : goal node = true
        · rw [if_pos hg] at h
          injection h with he
          rw [← he]
          simp
        · rw [if_neg hg] at h
          exact ih _ _ _ h

/-- Claim C4 as amended: when the BFS arm of `main` finds a solution, the
scalar statistic reported alongside the path is the path length — the number
of states, i.e. the move count plus one, not the move count. -/
theorem claims_C4 (fuel : Nat) (start : NPuzzle) (path : List NPuzzle)
    (stat : Nat) (h : bfs_main_result start fuel = some (path, stat)) :
    stat = path.length ∧ path ≠ [] ∧ stat = (path.length - 1) + 1 := by
  unfold bfs_main_result at h
  cases hb : bfs start fuel with
  | none =>
    rw [hb] at h
    simp at h
  | some found =>
    rw [hb] at h
    rw [show (some found).map report_with_length =
        some (report_with_length found) from rfl] at h
    injection h with h2
    rw [report_with_length, Prod.mk.injEq] at h2
    obtain ⟨hp, hs⟩ := h2
    subst hp
    have hne : found ≠ [] := bfsAux_ne_nil _ _ fuel _ _ found hb
    have hpos : 0 < found.length := List.length_pos.mpr hne
    exact ⟨hs.symm, hne, by omega⟩

/-- Claim C4, counterexample to the claim as stated: on the already solved
board, BFS returns the single-state path `[solved3]` and `main` reports the
statistic 1, not `path length - 1 = 0`. -/
theorem claims_C4_cex :
    bfs_main_result solved3 1 = some ([solved3], 1) ∧
      ¬((1 : Nat) = [solved3].length - 1) := by
  decide

theorem claims_C4_witness :
    (1 : Nat) = [solved3].length ∧ [solved3] ≠ [] ∧
      (1 : Nat) = ([solved3].length - 1) + 1 :=
  claims_C4 1 solved3 [solved3] 1 (by decide)

/-- Claim C5 as amended: construction validates nothing except that the
assembled flat list — up to `blank_index` tiles, the blank, then up to
`size*size - blank_index - 1` further tiles — has a perfect-square length.
When it does, `new` succeeds with a board of side `sqrt(length)` (possibly
different from the requested size, silently dropping surplus tiles, and
caching the given blank coordinate unchecked); only otherwise does it return
the `WrongLength` error. -/
theorem claims_C5 (size : Nat) (tiles : List Nat) (bp : Pos) :
    ((NPuzzle.board_pieces size tiles bp).length =
      (if size * bp.1 + bp.2 < size * size
       then min (size * bp.1 + bp.2) tiles.length + 1 +
         min (size * size - (size * bp.1 + bp.2) - 1)
           (tiles.length - (size * bp.1 + bp.2))
       else tiles.length + 1)) ∧
    (isqrt (NPuzzle.board_pieces size tiles bp).length *
        isqrt (NPuzzle.board_pieces size tiles bp).length =
        (NPuzzle.board_pieces size tiles bp).length →
      NPuzzle.new size tiles bp = .ok
        ⟨⟨isqrt (NPuzzle.board_pieces size tiles bp).length,
          NPuzzle.board_pieces size tiles bp⟩, bp⟩) ∧
    (¬(isqrt (NPuzzle.board_pieces size tiles bp).length *
        isqrt (NPuzzle.board_pieces size tiles bp).length =
        (NPuzzle.board_pieces size tiles bp).length) →
      NPuzzle.new size tiles bp = .error .WrongLength) := by
  refine ⟨?_, ?_, ?_⟩
  · simp only [NPuzzle.board_pieces]
    by_cases hbi : size * bp.1 + bp.2 < size * size
    · rw [if_pos hbi, if_pos hbi]
      simp [List.length_append, List.length_take, List.length_drop,
        List.length_map]
      omega
    · rw [if_neg hbi, if_neg hbi]
      simp [List.length_append, List.length_take, List.length_drop,
        List.length_map]
      omega
  · intro hsq
    simp only [NPuzzle.new, square_from_vec]
    rw [if_pos hsq]
    rfl
  · intro hsq
    simp only [NPuzzle.new, square_from_vec]
    rw [if_neg hsq]
    rfl

/-- Claim C5, counterexample to the claim as stated: requesting a 3×3 board
with only 3 tiles is malformed input (3 ≠ 3·3 − 1), yet construction
succeeds — with a 2×2 board instead of the requested size. -/
theorem claims_C5_cex :
    NPuzzle.new 3 [1, 2, 3] (0, 0) =
      .ok ⟨⟨2, [none, some 1, some 2, some 3]⟩, (0, 0)⟩ ∧
      ¬([1, 2, 3].length = 3 * 3 - 1) := by
  decide

theorem claims_C5_witness :
    NPuzzle.new 3 [1, 2, 3] (0, 0) = .ok
      ⟨⟨isqrt (NPuzzle.board_pieces 3 [1, 2, 3] (0, 0)).length,
        NPuzzle.board_pieces 3 [1, 2, 3] (0, 0)⟩, (0, 0)⟩ :=
  (claims_C5 3 [1, 2, 3] (0, 0)).2.1 (by decide)

/-- Claim C6 as amended: `move_blank` only asserts that the requested
position differs from the current blank position — on a valid board, for any
in-bounds target, the call panics iff the target equals the blank position;
a distinct non-adjacent target is silently accepted and swapped. -/
theorem claims_C6 (p : NPuzzle) (hv : Valid p) (q : Pos)
    (h1 : q.1 < p.board.rows) (h2 : q.2 < p.board.rows) :
    p.move_blank q = none ↔ q = p.blank_position := by
  constructor
  · intro h
    unfold NPuzzle.move_blank at h
    by_cases he : p.blank_position = q
    · exact he.symm
    · rw [if_neg he, if_pos ⟨hv.2.1, hv.2.2.1, h1, h2⟩] at h
      exact Option.noConfusion h
  · intro h
    subst h
    simp [NPuzzle.move_blank]

/-- Claim C6, counterexample to the claim as stated: from the blank at
`(0, 0)`, position `(2, 2)` is not an orthogonal neighbour, yet `move_blank`
accepts it silently (no assertion fires) and returns a board. -/
theorem claims_C6_cex :
    (scrambled3.move_blank (2, 2)).isSome = true ∧
      (2, 2) ∉ scrambled3.board.neighbours scrambled3.blank_position ∧
      (2, 2) ≠ scrambled3.blank_position := by
  decide

theorem claims_C6_witness :
    Valid scrambled3 ∧
      (scrambled3.move_blank (0, 1) = none ↔
        (0, 1) = scrambled3.blank_position) :=
  ⟨by decide, claims_C6 scrambled3 (by decide) (0, 1) (by decide) (by decide)⟩

/-- Claim C7: for every board with in-bounds blank and `n ≥ 2`, `successors`
yields one board per legal blank move — exactly 2 from a corner, 3 from a
non-corner edge, 4 from the interior; and the concrete n=3 scenario with
tiles `[7,8,5,3,1,4,6,2]` and blank `(1,1)` yields exactly 4 successors with
blank positions `(0,1), (1,0), (1,2), (2,1)`. -/
theorem claims_C7 :
    (∀ p : NPuzzle, 2 ≤ p.board.rows →
      p.blank_position.1 < p.board.rows →
      p.blank_position.2 < p.board.rows →
      ∃ ss, p.successors = some ss ∧
        (((p.blank_position.1 = 0 ∨ p.blank_position.1 = p.board.rows - 1) ∧
          (p.blank_position.2 = 0 ∨ p.blank_position.2 = p.board.rows - 1)) →
            ss.length = 2) ∧
        ((((p.blank_position.1 = 0 ∨ p.blank_position.1 = p.board.rows - 1) ∧
           ¬(p.blank_position.2 = 0 ∨ p.blank_position.2 = p.board.rows - 1)) ∨
          (¬(p.blank_position.1 = 0 ∨ p.blank_position.1 = p.board.rows - 1) ∧
           (p.blank_position.2 = 0 ∨ p.blank_position.2 = p.board.rows - 1))) →
            ss.length = 3) ∧
        ((¬(p.blank_position.1 = 0 ∨ p.blank_position.1 = p.board.rows - 1) ∧
          ¬(p.blank_position.2 = 0 ∨ p.blank_position.2 = p.board.rows - 1)) →
            ss.length = 4)) ∧
    (∃ c ss, NPuzzle.new 3 [7, 8, 5, 3, 1, 4, 6, 2] (1, 1) = .ok c ∧
      c.successors = some ss ∧ ss.length = 4 ∧
      ss.map (fun s => s.blank_position) = [(0, 1), (1, 0), (1, 2), (2, 1)]) := by
  constructor
  · intro p h2n hb1 hb2
    refine ⟨_, successors_eq_map p hb1 hb2, ?_, ?_, ?_⟩
    all_goals
      intro hcase
    all_goals
      rw [List.length_map, neighbours_length p.board p.blank_position hb1 hb2]
    all_goals
      omega
  · refine ⟨⟨⟨3, [some 7, some 8, some 5, some 3, none, some 1, some 4,
      some 6, some 2]⟩, (1, 1)⟩,
      [⟨⟨3, [some 7, none, some 5, some 3, some 8, some 1, some 4, some 6,
        some 2]⟩, (0, 1)⟩,
       ⟨⟨3, [some 7, some 8, some 5, none, some 3, some 1, some 4, some 6,
        some 2]⟩, (1, 0)⟩,
       ⟨⟨3, [some 7, some 8, some 5, some 3, some 1, none, some 4, some 6,
        some 2]⟩, (1, 2)⟩,
       ⟨⟨3, [some 7, some 8, some 5, some 3, some 6, some 1, some 4, none,
        some 2]⟩, (2, 1)⟩],
      by decide, by decide, by decide, by decide⟩

theorem claims_C7_witness :
    ∃ ss, scrambled3.successors = some ss ∧
      (((scrambled3.blank_position.1 = 0 ∨
         scrambled3.blank_position.1 = scrambled3.board.rows - 1) ∧
        (scrambled3.blank_position.2 = 0 ∨
         scrambled3.blank_position.2 = scrambled3.board.rows - 1)) →
          ss.length = 2) ∧
      ((((scrambled3.blank_position.1 = 0 ∨
          scrambled3.blank_position.1 = scrambled3.board.rows - 1) ∧
         ¬(scrambled3.blank_position.2 = 0 ∨
           scrambled3.blank_position.2 = scrambled3.board.rows - 1)) ∨
        (¬(scrambled3.blank_position.1 = 0 ∨
           scrambled3.blank_position.1 = scrambled3.board.rows - 1) ∧
         (scrambled3.blank_position.2 = 0 ∨
          scrambled3.blank_position.2 = scrambled3.board.rows - 1))) →
          ss.length = 3) ∧
      ((¬(scrambled3.blank_position.1 = 0 ∨
          scrambled3.blank_position.1 = scrambled3.board.rows - 1) ∧
        ¬(scrambled3.blank_position.2 = 0 ∨
          scrambled3.blank_position.2 = scrambled3.board.rows - 1)) →
          ss.length = 4) :=
  claims_C7.1 scrambled3 (by decide) (by decide) (by decide)

theorem map_some_getD (tiles : List Nat) (i : Nat) (hi : i < tiles.length) :
    (tiles.map some).getD i none = some (tiles.getD i 0) := by
  rw [List.getD_eq_getElem?_getD, List.getD_eq_getElem?_getD,
    List.getElem?_map, List.getElem?_eq_getElem hi]
  rfl

/-- Claim C8: successful construction with `n² - 1` tiles and an in-bounds
blank places the blank at flat index `n*row + col`, keeps every other tile
in the given order (tiles before the blank index at their own index, later
tiles shifted by one), and caches exactly the given blank coordinate. -/
theorem claims_C8 (size : Nat) (tiles : List Nat) (bp : Pos)
    (hlen : tiles.length = size * size - 1)
    (h1 : bp.1 < size) (h2 : bp.2 < size) :
    ∃ b, NPuzzle.new size tiles bp = .ok b ∧
      b.board.rows = size ∧ b.blank_position = bp ∧
      b.board.data.length = size * size ∧
      b.board.data.getD (size * bp.1 + bp.2) none = none ∧
      (∀ i, i < size * bp.1 + bp.2 →
        b.board.data.getD i none = some (tiles.getD i 0)) ∧
      (∀ i, size * bp.1 + bp.2 < i → i < size * size →
        b.board.data.getD i none = some (tiles.getD (i - 1) 0)) := by
  have hbi : size * bp.1 + bp.2 < size * size :=
    idx_lt_of_bounds size bp.1 bp.2 h1 h2
  have hble : size * bp.1 + bp.2 ≤ (tiles.map some).length := by
    rw [List.length_map, hlen]
    omega
  refine ⟨_, new_ok_spec size tiles bp hlen h1 h2, rfl, rfl, ?_, ?_, ?_, ?_⟩
  · show ((tiles.map some).take (size * bp.1 + bp.2) ++ [none] ++
        (tiles.map some).drop (size * bp.1 + bp.2)).length = size * size
    rw [List.length_append, List.length_append, List.length_take,
      List.length_drop, List.length_map, hlen, Nat.min_def]
    split
    · simp
      omega
    · simp
      omega
  · exact splice_getD_self _ _ hble
  · intro i hi
    show ((tiles.map some).take (size * bp.1 + bp.2) ++ [none] ++
        (tiles.map some).drop (size * bp.1 + bp.2)).getD i none =
      some (tiles.getD i 0)
    rw [splice_getD_left _ _ _ hi hble, map_some_getD tiles i (by omega)]
  · intro i hgt hlt
    show ((tiles.map some).take (size * bp.1 + bp.2) ++ [none] ++
        (tiles.map some).drop (size * bp.1 + bp.2)).getD i none =
      some (tiles.getD (i - 1) 0)
    rw [splice_getD_right _ _ _ hble hgt, map_some_getD tiles (i - 1) (by omega)]

theorem claims_C8_witness :
    ∃ b, NPuzzle.new 3 [1, 2, 3, 4, 5, 6, 7, 8] (2, 2) = .ok b ∧
      b.board.rows = 3 ∧ b.blank_position = (2, 2) ∧
      b.board.data.length = 3 * 3 ∧
      b.board.data.getD (3 * (2, 2).1 + (2, 2).2) none = none ∧
      (∀ i, i < 3 * (2, 2).1 + (2, 2).2 →
        b.board.data.getD i none = some ([1, 2, 3, 4, 5, 6, 7, 8].getD i 0)) ∧
      (∀ i, 3 * (2, 2).1 + (2, 2).2 < i → i < 3 * 3 →
        b.board.data.getD i none =
          some ([1, 2, 3, 4, 5, 6, 7, 8].getD (i - 1) 0)) :=
  claims_C8 3 [1, 2, 3, 4, 5, 6, 7, 8] (2, 2) (by decide) (by decide)
    (by decide)

/-- Claim C9: every operation preserves the board invariants.  Construction
from distinct in-range labels yields a valid board; `move_blank` to a
neighbour and every `successors` element preserve validity; and validity
spells out the spec's invariants — distinct labels in `[1, n²-1]`, exactly
one blank cell, and a cached blank position matching the grid's actual
blank. -/
theorem claims_C9 :
    (∀ size tiles bp, tiles.length = size * size - 1 → bp.1 < size →
      bp.2 < size → (∀ v ∈ tiles, 1 ≤ v ∧ v ≤ size * size - 1) →
      tiles.Nodup →
      ∃ b, NPuzzle.new size tiles bp = .ok b ∧ Valid b) ∧
    (∀ p q, Valid p → q ∈ p.board.neighbours p.blank_position →
      ∃ s, p.move_blank q = some s ∧ Valid s) ∧
    (∀ p, Valid p → ∃ ss, p.successors = some ss ∧ ∀ s ∈ ss, Valid s) ∧
    (∀ p, Valid p → (p.board.data.filterMap id).Nodup ∧
      (∀ v, some v ∈ p.board.data →
        1 ≤ v ∧ v ≤ p.board.rows * p.board.rows - 1) ∧
      p.board.data.countP (fun c : Option Nat => c.isNone) = 1 ∧
      p.board.data.getD (p.board.idx p.blank_position) none = none) := by
  refine ⟨?_, ?_, ?_, ?_⟩
  · intro size tiles bp hlen h1 h2 hrange hnd
    obtain ⟨b, hb, hvb, _, _⟩ := valid_new size tiles bp hlen h1 h2 hrange hnd
    exact ⟨b, hb, hvb⟩
  · intro p q hv hq
    obtain ⟨s, hs, hvs, _, _, _⟩ := valid_move_blank p q hv hq
    exact ⟨s, hs, hvs⟩
  · intro p hv
    refine ⟨_, successors_eq_map p hv.2.1 hv.2.2.1, ?_⟩
    intro s hs
    rcases List.mem_map.mp hs with ⟨q, hq, rfl⟩
    obtain ⟨s2, hs2, hvs2, _, _, _⟩ := valid_move_blank p q hv hq
    have hmb := move_blank_of_neighbour p q hv.2.1 hv.2.2.1 hq
    rw [hmb] at hs2
    injection hs2 with he
    rw [← he] at hvs2
    exact hvs2
  · intro p hv
    obtain ⟨hlen, hb1, hb2, hblank, hcount, hall, hnd⟩ := hv
    refine ⟨?_, ?_, hcount, hblank⟩
    · apply List.Nodup.filterMap ?_ hnd
      intro a b c hca hcb
      rw [Option.mem_def, id] at hca hcb
      rw [hca, hcb]
    · intro v hvmem
      have := List.all_eq_true.mp hall _ hvmem
      simpa [tileOK] using this

theorem claims_C9_witness :
    ∃ b, NPuzzle.new 3 [1, 2, 3, 4, 5, 6, 7, 8] (2, 2) = .ok b ∧ Valid b :=
  claims_C9.1 3 [1, 2, 3, 4, 5, 6, 7, 8] (2, 2) (by decide) (by decide)
    (by decide) (by decide) (by decide)

theorem mem_board_pieces (size : Nat) (tiles : List Nat) (bp : Pos) :
    ∀ c ∈ NPuzzle.board_pieces size tiles bp,
      c = none ∨ ∃ v ∈ tiles, c = some v := by
  intro c hc
  simp only [NPuzzle.board_pieces] at hc
  rcases List.mem_append.mp hc with h1 | h2
  · rcases List.mem_append.mp h1 with ht | hn
    · rcases List.mem_map.mp (List.take_subset _ _ ht) with ⟨v, hv, rfl⟩
      exact .inr ⟨v, hv, rfl⟩
    · exact .inl (List.mem_singleton.mp hn)
  · have := List.take_subset _ _ h2
    rcases List.mem_map.mp (List.drop_subset _ _ this) with ⟨v, hv, rfl⟩
    exact .inr ⟨v, hv, rfl⟩

theorem new_ok_shape (size : Nat) (tiles : List Nat) (bp : Pos) (b : NPuzzle)
    (h : NPuzzle.new size tiles bp = .ok b) :
    b.board.data = NPuzzle.board_pieces size tiles bp ∧
      b.blank_position = bp := by
  unfold NPuzzle.new square_from_vec at h
  by_cases hsq : isqrt (NPuzzle.board_pieces size tiles bp).length *
      isqrt (NPuzzle.board_pieces size tiles bp).length =
      (NPuzzle.board_pieces size tiles bp).length
  · rw [if_pos hsq] at h
    have h2 : Except.ok (NPuzzle.mk
        ⟨isqrt (NPuzzle.board_pieces size tiles bp).length,
          NPuzzle.board_pieces size tiles bp⟩ bp) =
        (Except.ok b : Except MatrixFormatError NPuzzle) := h
    injection h2 with h3
    rw [← h3]
    exact ⟨rfl, rfl⟩
  · rw [if_neg hsq] at h
    exact Except.noConfusion h

theorem getD_eq_none_of_le (l : List (Option Nat)) (n : Nat)
    (h : l.length ≤ n) : l.getD n none = none := by
  induction l generalizing n with
  | nil => simp
  | cons a t ih =>
    cases n with
    | zero => simp at h
    | succ m =>
      rw [List.getD_cons_succ]
      exact ih m (by simpa using h)

theorem mem_swapData_any (l : List (Option Nat)) (i j : Nat) :
    ∀ c ∈ swapData l i j, c ∈ l ∨ c = none := by
  intro c hc
  rcases List.mem_or_eq_of_mem_set hc with hc2 | rfl
  · rcases List.mem_or_eq_of_mem_set hc2 with hc3 | rfl
    · exact .inl hc3
    · by_cases hj : j < l.length
      · exact .inl (getD_mem_of_lt l j hj)
      · exact .inr (getD_eq_none_of_le l j (by omega))
  · by_cases hi : i < l.length
    · exact .inl (getD_mem_of_lt l i hi)
    · exact .inr (getD_eq_none_of_le l i (by omega))

theorem move_blank_some_shape (p : NPuzzle) (q : Pos) (s : NPuzzle)
    (h : p.move_blank q = some s) :
    s.board.data = swapData p.board.data
      (p.board.idx p.blank_position) (p.board.idx q) ∧
      s.blank_position = q := by
  unfold NPuzzle.move_blank at h
  by_cases h1 : p.blank_position = q
  · rw [if_pos h1] at h
    exact Option.noConfusion h
  · rw [if_neg h1] at h
    by_cases h2 : p.blank_position.1 < p.board.rows ∧
        p.blank_position.2 < p.board.rows ∧
        q.1 < p.board.rows ∧ q.2 < p.board.rows
    · rw [if_pos h2] at h
      injection h with he
      rw [← he]
      exact ⟨rfl, rfl⟩
    · rw [if_neg h2] at h
      exact Option.noConfusion h

theorem collectMoves_mem (f : Pos → Option NPuzzle) (l : List Pos)
    (bs : List NPuzzle) (h : collectMoves f l = some bs) :
    ∀ b ∈ bs, ∃ a ∈ l, f a = some b := by
  induction l generalizing bs with
  | nil =>
    rw [collectMoves] at h
    injection h with he
    rw [← he]
    simp
  | cons a t ih =>
    rw [collectMoves] at h
    cases hfa : f a with
    | none => rw [hfa] at h; exact Option.noConfusion h
    | some b0 =>
      rw [hfa] at h
      cases hct : collectMoves f t with
      | none => rw [hct] at h; exact Option.noConfusion h
      | some bs0 =>
        rw [hct] at h
        injection h with he
        rw [← he]
        intro b hb
        rcases List.mem_cons.mp hb with rfl | hbs0
        · exact ⟨a, by simp, hfa⟩
        · obtain ⟨a2, ha2, hfa2⟩ := ih bs0 hct b hbs0
          exact ⟨a2, by simp [ha2], hfa2⟩

theorem length_filterMap_id (l : List (Option Nat)) :
    (l.filterMap id).length =
      l.length - l.countP (fun c : Option Nat => c.isNone) := by
  induction l with
  | nil => simp
  | cons a t ih =>
    have hle := List.countP_le_length
      (p := fun c : Option Nat => c.isNone) (l := t)
    cases a with
    | none =>
      rw [List.filterMap_cons]
      simp only [id, List.countP_cons, List.length_cons]
      simp
      omega
    | some v =>
      rw [List.filterMap_cons]
      simp only [id, List.countP_cons, List.length_cons]
      simp [ih]
      omega

/-- Claim C10: the construction interface only accepts `NonZeroU8` labels,
so every constructed board — and every board derived from it by
`move_blank` or `successors` — holds only blanks and labels in `[1, 255]`;
consequently no valid board with side `n ≥ 17` (which needs `n² - 1 ≥ 288`
distinct labels) can keep all its labels within 255, so such boards cannot
be expressed through this interface. -/
theorem claims_C10 :
    (∀ size tiles bp b, (∀ v ∈ tiles, 1 ≤ v ∧ v ≤ 255) →
      NPuzzle.new size tiles bp = .ok b →
      ∀ v, some v ∈ b.board.data → 1 ≤ v ∧ v ≤ 255) ∧
    (∀ (p : NPuzzle) (q : Pos) (s : NPuzzle),
      (∀ v, some v ∈ p.board.data → 1 ≤ v ∧ v ≤ 255) →
      p.move_blank q = some s →
      ∀ v, some v ∈ s.board.data → 1 ≤ v ∧ v ≤ 255) ∧
    (∀ (p : NPuzzle) (ss : List NPuzzle) (s : NPuzzle),
      (∀ v, some v ∈ p.board.data → 1 ≤ v ∧ v ≤ 255) →
      p.successors = some ss → s ∈ ss →
      ∀ v, some v ∈ s.board.data → 1 ≤ v ∧ v ≤ 255) ∧
    (∀ p : NPuzzle, Valid p → 17 ≤ p.board.rows →
      ¬(∀ v, some v ∈ p.board.data → v ≤ 255)) := by
  have hmove : ∀ (p : NPuzzle) (q : Pos) (s : NPuzzle),
      (∀ v, some v ∈ p.board.data → 1 ≤ v ∧ v ≤ 255) →
      p.move_blank q = some s →
      ∀ v, some v ∈ s.board.data → 1 ≤ v ∧ v ≤ 255 := by
    intro p q s hbound hmb v hvmem
    obtain ⟨hdata, _⟩ := move_blank_some_shape p q s hmb
    rw [hdata] at hvmem
    rcases mem_swapData_any _ _ _ _ hvmem with hmem | hnone
    · exact hbound v hmem
    · exact Option.noConfusion hnone
  refine ⟨?_, hmove, ?_, ?_⟩
  · intro size tiles bp b hbound hok v hvmem
    obtain ⟨hdata, _⟩ := new_ok_shape size tiles bp b hok
    rw [hdata] at hvmem
    rcases mem_board_pieces size tiles bp _ hvmem with hnone | ⟨w, hw, he⟩
    · exact Option.noConfusion hnone
    · injection he with he2
      rw [he2]
      exact hbound w hw
  · intro p ss s hbound hss hmem
    obtain ⟨q, _, hmb⟩ := collectMoves_mem _ _ _ hss s hmem
    exact hmove p q s hbound hmb
  · intro p hv h17 hall255
    obtain ⟨hlen, hb1, hb2, hblank, hcount, hall, hnd⟩ := hv
    have hndlab : (p.board.data.filterMap id).Nodup := by
      apply List.Nodup.filterMap ?_ hnd
      intro a b c hca hcb
      rw [Option.mem_def, id] at hca hcb
      rw [hca, hcb]
    have hlab_len : (p.board.data.filterMap id).length =
        p.board.rows * p.board.rows - 1 := by
      rw [length_filterMap_id, hlen, hcount]
    have hsub : (p.board.data.filterMap id).toFinset ⊆
        Finset.Icc 1 255 := by
      intro v hvfin
      rw [List.mem_toFinset, List.mem_filterMap] at hvfin
      obtain ⟨c, hc, hcv⟩ := hvfin
      rw [id] at hcv
      subst hcv
      have hup := hall255 v hc
      have hlo := List.all_eq_true.mp hall _ hc
      simp only [tileOK, decide_eq_true_eq] at hlo
      rw [Finset.mem_Icc]
      exact ⟨hlo.1, hup⟩
    have hcard : (p.board.data.filterMap id).toFinset.card =
        p.board.rows * p.board.rows - 1 := by
      rw [List.toFinset_card_of_nodup hndlab, hlab_len]
    have hle := Finset.card_le_card hsub
    rw [hcard, Nat.card_Icc] at hle
    have hbig : 17 * 17 ≤ p.board.rows * p.board.rows :=
      Nat.mul_le_mul h17 h17
    omega

theorem claims_C10_witness :
    ∀ v, some v ∈ solved3.board.data → 1 ≤ v ∧ v ≤ 255 :=
  claims_C10.1 3 [1, 2, 3, 4, 5, 6, 7, 8] (2, 2) solved3 (by decide)
    (by decide)
